import Mathlib

/-!
Verification development for the 2nd-brain repository.

Part 1 embeds the frontend applications page
(`src/frontend/app/professor/applications/page.tsx`).
Part 2 models the sanitization / multi-tenant retrieval pipeline.  The
Python modules implementing it (`security/data_sanitizer.py`,
`indexing/vector_database.py`, `classification/work_personal_classifier.py`,
`gap_analysis/gap_analyzer.py`) are referenced by the repository's
documentation but are not present in the source tree, so those components
are modelled from the specification, as marked on each definition.
-/

/-! ## Frontend: professor applications page -/

/-- Status union type of `Application` in `page.tsx`. -/
inductive AppStatus where
  | pending
  | under_review
  | accepted
  | rejected
deriving DecidableEq

/-- The `Application` interface of `page.tsx`. -/
structure Application where
  id : String
  studentName : String
  email : String
  labName : String
  major : String
  gpa : String
  graduationDate : String
  appliedDate : String
  status : AppStatus
  resumeUrl : Option String
  coverLetter : String
deriving DecidableEq

/-- The functional updater passed to `setApplications` inside
`updateApplicationStatus` in `page.tsx`:
`apps.map(app => app.id === appId ? { ...app, status } : app)`. -/
def updateApplicationStatus (appId : String) (status : AppStatus)
    (apps : List Application) : List Application :=
  apps.map (fun app => if app.id = appId then { app with status := status } else app)

/-- Result record of `getStatusColor` in `page.tsx`. -/
structure StatusStyle where
  bg : String
  text : String
  label : String
deriving DecidableEq

/-- `getStatusColor` from `page.tsx`; the TypeScript `switch` over an
arbitrary string is embedded as a chain of equality tests. -/
def getStatusColor (status : String) : StatusStyle :=
  if status = "pending" then ⟨"#FEF3C7", "#92400E", "Pending"⟩
  else if status = "under_review" then ⟨"#DBEAFE", "#1E40AF", "Under Review"⟩
  else if status = "accepted" then ⟨"#D1FAE5", "#065F46", "Accepted"⟩
  else if status = "rejected" then ⟨"#FEE2E2", "#991B1B", "Rejected"⟩
  else ⟨"#F3F4F6", "#6B7280", "Unknown"⟩

/-! ## Sanitizer (modelled from the spec) -/

/-- Modelled from the spec: the PII classes the sanitizer registers
(`security/data_sanitizer.py` is not in the source tree):
emails, phone numbers, SSN-shaped IDs, payment card numbers, IP addresses. -/
inductive PIIClass where
  | email
  | phone
  | ssn
  | card
  | ip
deriving DecidableEq

/-- Modelled from the spec: the fixed placeholder token naming only the
PII class, never the original value. -/
def token : PIIClass → String
  | .email => "[EMAIL_REDACTED]"
  | .phone => "[PHONE_REDACTED]"
  | .ssn => "[SSN_REDACTED]"
  | .card => "[CARD_REDACTED]"
  | .ip => "[IP_REDACTED]"

/-- Canonical ordering of the registered PII classes. -/
def piiClasses : List PIIClass := [.email, .phone, .ssn, .card, .ip]

/-- SSN-shaped digit group: ddd-dd-dddd. -/
def isSSNShape : List Char → Bool
  | [a, b, c, '-', d, e, '-', f, g, h, i] =>
    a.isDigit && b.isDigit && c.isDigit && d.isDigit && e.isDigit &&
    f.isDigit && g.isDigit && h.isDigit && i.isDigit
  | _ => false

/-- Phone-number shapes (two common formats): ddd-ddd-dddd and ddd.ddd.dddd. -/
def isPhoneShape : List Char → Bool
  | [a, b, c, '-', d, e, f, '-', g, h, i, j]
  | [a, b, c, '.', d, e, f, '.', g, h, i, j] =>
    a.isDigit && b.isDigit && c.isDigit && d.isDigit && e.isDigit &&
    f.isDigit && g.isDigit && h.isDigit && i.isDigit && j.isDigit
  | _ => false

/-- Payment-card shape: 13 to 16 consecutive digits. -/
def isCardShape (w : List Char) : Bool :=
  w.all Char.isDigit && decide (13 ≤ w.length) && decide (w.length ≤ 16)

/-- Splits a word at every dot, used by the IP-address shape. -/
def splitOnDotAux (cur : List Char) : List Char → List (List Char)
  | [] => [cur.reverse]
  | c :: rest =>
    if c = '.' then cur.reverse :: splitOnDotAux [] rest
    else splitOnDotAux (c :: cur) rest

/-- IP-address shape: four dot-separated groups of one to three digits. -/
def isIPShape (w : List Char) : Bool :=
  let gs := splitOnDotAux [] w
  decide (gs.length = 4) &&
    gs.all (fun g => !g.isEmpty && g.all Char.isDigit && decide (g.length ≤ 3))

/-- Email shape: the word carries an at sign and a dot. -/
def isEmailShape (w : List Char) : Bool :=
  w.contains '@' && w.contains '.'

/-- Modelled from the spec: detection of a registered PII pattern on one
whitespace-delimited word, most specific shape first. -/
def classOf (w : List Char) : Option PIIClass :=
  if isSSNShape w then some .ssn
  else if isPhoneShape w then some .phone
  else if isCardShape w then some .card
  else if isIPShape w then some .ip
  else if isEmailShape w then some .email
  else none

/-- Splits text into maximal whitespace-free nonempty words; `cur` holds the
reversed current word. -/
def splitWordsAux (cur : List Char) : List Char → List (List Char)
  | [] => if cur.isEmpty then [] else [cur.reverse]
  | c :: rest =>
    if c.isWhitespace then
      if cur.isEmpty then splitWordsAux [] rest
      else cur.reverse :: splitWordsAux [] rest
    else splitWordsAux (c :: cur) rest

/-- Word view of a character list. -/
def splitWords (s : List Char) : List (List Char) :=
  splitWordsAux [] s

/-- Joins words back with single spaces. -/
def joinWords : List (List Char) → List Char
  | [] => []
  | [w] => w
  | w :: x :: ws => w ++ ' ' :: joinWords (x :: ws)

/-- Joined length contributed by what was already kept: a separating space
is needed once something nonempty precedes. -/
def joinPad (acc : Nat) : Nat :=
  if acc = 0 then 0 else acc + 1

/-- Joined length after also keeping word `w` behind `acc` kept characters. -/
def wordCost (acc : Nat) (w : List Char) : Nat :=
  if acc = 0 then w.length else acc + 1 + w.length

/-- Modelled from the spec: data minimization keeps the longest prefix of
words whose joined length stays within the configured maximum; `acc` is the
joined length kept so far. -/
def fitWords (maxLen : Nat) : Nat → List (List Char) → List (List Char)
  | _, [] => []
  | acc, w :: ws =>
    if wordCost acc w ≤ maxLen then w :: fitWords maxLen (wordCost acc w) ws
    else []

/-- Replaces a word by its class token when it matches a PII pattern. -/
def redactWord (w : List Char) : List Char :=
  match classOf w with
  | some c => (token c).data
  | none => w

/-- The fully redacted (not yet truncated) word sequence of a text. -/
def sanitizedWords (text : String) : List (List Char) :=
  (splitWords text.data).map redactWord

/-- Modelled from the spec: the sanitizer's configuration object; the
configured maximum content length defaults to 2000 characters. -/
structure SanitizerConfig where
  maxLen : Nat
deriving DecidableEq

/-- The default sanitizer configuration (maximum 2000 characters). -/
def defaultSanitizerConfig : SanitizerConfig := ⟨2000⟩

/-- Modelled from the spec: the redaction report, an ordered sequence of
(pii_type, count) entries plus the truncation flag. -/
structure RedactionReport where
  entries : List (PIIClass × Nat)
  truncated : Bool
deriving DecidableEq

/-- Modelled from the spec: the sanitizer's output value. -/
structure SanitizedItem where
  content : String
  redaction_report : RedactionReport
deriving DecidableEq

/-- The fully redacted text of an input, before any truncation. -/
def fullRedaction (text : String) : String :=
  String.mk (joinWords (sanitizedWords text))

/-- Modelled from the spec: `sanitize(text)` — every word matching a
registered PII pattern is replaced by its class token, the redacted content
is length-bounded by the configured maximum (dropping trailing words), and
the report lists per-class counts and whether truncation occurred. -/
def sanitize (cfg : SanitizerConfig) (text : String) : SanitizedItem :=
  let sw := sanitizedWords text
  let matched := (splitWords text.data).filterMap classOf
  ⟨String.mk (joinWords (fitWords cfg.maxLen 0 sw)),
   ⟨(piiClasses.map
       (fun c => (c, (matched.filter (fun d => decide (d = c))).length))).filter
       (fun p => decide (p.2 ≠ 0)),
    decide (cfg.maxLen < (joinWords sw).length)⟩⟩

/-- Modelled from the spec: `validate(text)` — true when no registered PII
pattern is still detectable. -/
def validate (s : String) : Bool :=
  (splitWords s.data).all (fun w => (classOf w).isNone)

/-- Number of words of `s` matching the pattern of class `cls`. -/
def countMatches (cls : PIIClass) (s : String) : Nat :=
  ((splitWords s.data).filter (fun w => decide (classOf w = some cls))).length

/-! ## Tenant-isolated store (modelled from the spec) -/

/-- The chunk record of the data model. -/
structure Chunk where
  text : String
  organization_id : String
  source_item_id : Nat
  embedding : List Int
  chunk_index : Nat
deriving DecidableEq

/-- Modelled from the spec and the checklist's documented convention: the
deterministic namespace name of an organization,
`org_{org_id}_knowledgevault`. -/
def collectionName (orgId : String) : String :=
  "org_" ++ orgId ++ "_knowledgevault"

/-- The store: an association of collection names to their chunks. -/
abbrev Store := List (String × List Chunk)

/-- Error taxonomy of the store contract. -/
inductive StoreError where
  | namespaceConflict
  | unknownOrganization
deriving DecidableEq

/-- Result of one query: ranked chunks of a single organization. -/
structure RetrievalResult where
  chunks : List Chunk
  organization_id : String
deriving DecidableEq

/-- Looks a collection up by name. -/
def storeFind : Store → String → Option (List Chunk)
  | [], _ => none
  | (n, v) :: t, name => if n = name then some v else storeFind t name

/-- Appends chunks to a collection, creating it on first write. -/
def storeInsert : Store → String → List Chunk → Store
  | [], name, cs => [(name, cs)]
  | (n, v) :: t, name, cs =>
    if n = name then (n, v ++ cs) :: t else (n, v) :: storeInsert t name cs

/-- Inner-product similarity of two vectors. -/
def dot : List Int → List Int → Int
  | [], _ => 0
  | _, [] => 0
  | a :: as, b :: bs => a * b + dot as bs

/-- Ranking relation: higher similarity first, ties broken by the more
recent (larger) `source_item_id` first. -/
def rankLE (qv : List Int) (a b : Chunk) : Bool :=
  decide (dot qv b.embedding < dot qv a.embedding) ||
    (decide (dot qv a.embedding = dot qv b.embedding) &&
      decide (b.source_item_id ≤ a.source_item_id))

/-- Inserts `x` into `l` before the first element it ranks at least as
high as. -/
def insertBy {α : Type} (le : α → α → Bool) (x : α) : List α → List α
  | [] => [x]
  | y :: ys => if le x y then x :: y :: ys else y :: insertBy le x ys

/-- Insertion sort with a boolean comparator. -/
def sortBy {α : Type} (le : α → α → Bool) : List α → List α
  | [] => []
  | x :: xs => insertBy le x (sortBy le xs)

/-- Ranks a collection against a query vector and keeps the top `k`. -/
def rank (qv : List Int) (k : Nat) (cs : List Chunk) : List Chunk :=
  (sortBy (rankLE qv) cs).take k

/-- Modelled from the spec: `write(org_id, chunks)` — creates the
organization's namespace if absent and appends; fails with
`NamespaceConflictError` when a chunk's `organization_id` does not match. -/
def write (s : Store) (orgId : String) (cs : List Chunk) :
    Except StoreError Store :=
  if cs.all (fun c => decide (c.organization_id = orgId)) then
    Except.ok (storeInsert s (collectionName orgId) cs)
  else
    Except.error StoreError.namespaceConflict

/-- Modelled from the spec: `query(org_id, query_vector, top_k)` — resolves
the namespace through `collectionName`; a missing namespace fails with
`UnknownOrganizationError`, never a default namespace. -/
def query (s : Store) (orgId : String) (qv : List Int) (k : Nat) :
    Except StoreError RetrievalResult :=
  match storeFind s (collectionName orgId) with
  | none => Except.error StoreError.unknownOrganization
  | some cs => Except.ok ⟨rank qv k cs, orgId⟩

/-- Modelled from the spec: `delete(org_id)` removes the organization's
entire namespace. -/
def delete (s : Store) (orgId : String) : Store :=
  s.filter (fun p => decide (¬ p.1 = collectionName orgId))

/-- Applies a sequence of write operations; a failing write leaves the
store unchanged. -/
def applyWrites (s : Store) (ops : List (String × List Chunk)) : Store :=
  ops.foldl (fun acc op =>
    match write acc op.1 op.2 with
    | .ok s' => s'
    | .error _ => acc) s

/-- Store well-formedness: every stored chunk lives in the collection named
after its own organization. -/
def WfStore (s : Store) : Prop :=
  ∀ p ∈ s, ∀ c ∈ p.2, collectionName c.organization_id = p.1

/-! ## Retrieval/gap engine (modelled from the spec) -/

/-- An expected topic with the embedding of its reference phrasing. -/
structure ExpectedTopic where
  name : String
  refVec : List Int
deriving DecidableEq

/-- One line of a gap report. -/
structure GapEntry where
  topic : String
  supported : Bool
  supporting : List Chunk
deriving DecidableEq

/-- Configured similarity threshold for gap analysis. -/
structure GapConfig where
  simThreshold : Int
deriving DecidableEq

/-- Modelled from the spec: `analyze_gaps(results, expected_topics)` — a
topic is supported when at least one retrieved chunk reaches the configured
similarity threshold against its reference phrasing, otherwise a gap. -/
def analyzeGaps (cfg : GapConfig) (r : RetrievalResult)
    (topics : List ExpectedTopic) : List GapEntry :=
  topics.map (fun t =>
    let sup := r.chunks.filter
      (fun c => decide (cfg.simThreshold ≤ dot t.refVec c.embedding))
    ⟨t.name, !sup.isEmpty, sup⟩)

/-! ## Classifier gate (modelled from the spec) -/

/-- Work/personal category. -/
inductive Category where
  | work
  | personal
deriving DecidableEq

/-- Modelled from the spec: a classification label with confidence in 0–1. -/
structure ClassificationLabel where
  category : Category
  confidence : Rat
deriving DecidableEq

/-- Classification failure (fails closed). -/
inductive ClassifyError where
  | unreadable
deriving DecidableEq

/-- The raw item entering the pipeline. -/
structure RawItem where
  content : String
  subject : String
  source_type : String
  created_at : Nat
  organization_id : String
deriving DecidableEq

/-- Pipeline configuration: confidence threshold and sanitizer settings. -/
structure PipelineConfig where
  threshold : Rat
  sanitizerCfg : SanitizerConfig
deriving DecidableEq

/-- Outcome surfaced to the caller. -/
inductive IngestOutcome where
  | stored (item : SanitizedItem)
  | rejected (reason : String)
deriving DecidableEq

/-- Pipeline run trace: the outcome plus whether the Sanitizer and the
Store were ever reached. -/
structure PipelineTrace where
  outcome : IngestOutcome
  sanitizerCalled : Bool
  storeWritten : Bool
deriving DecidableEq

/-- Modelled from the spec: the classification gate of the ingest pipeline —
only an item classified work with confidence at or above the threshold
proceeds to the Sanitizer and the Store; classification errors fail closed. -/
def processItem (classify : RawItem → Except ClassifyError ClassificationLabel)
    (cfg : PipelineConfig) (item : RawItem) : PipelineTrace :=
  match classify item with
  | .error _ => ⟨.rejected "classification_failure", false, false⟩
  | .ok lab =>
    if lab.category = Category.work ∧ cfg.threshold ≤ lab.confidence then
      ⟨.stored (sanitize cfg.sanitizerCfg item.content), true, true⟩
    else
      ⟨.rejected "personal", false, false⟩

/-- A deterministic rule-based classifier variant, as the spec's design
notes require for tests: emails are work with confidence 1, anything else
personal; empty content is unreadable. -/
def ruleClassifier (item : RawItem) : Except ClassifyError ClassificationLabel :=
  if item.content = "" then Except.error ClassifyError.unreadable
  else if item.source_type = "email" then Except.ok ⟨Category.work, 1⟩
  else Except.ok ⟨Category.personal, 1⟩

/-! ## Auxiliary definitions for the statements -/

/-- A word is whitespace-free. -/
def WsFree (w : List Char) : Prop :=
  ∀ c ∈ w, c.isWhitespace = false

/-- Whether `pat` is an initial segment of `hay`. -/
def startsWithChars : List Char → List Char → Bool
  | _, [] => true
  | [], _ :: _ => false
  | h :: hs, p :: ps => decide (h = p) && startsWithChars hs ps

/-- Whether `pat` occurs as a contiguous substring of `hay`. -/
def hasSubstringChars : List Char → List Char → Bool
  | [], pat => pat.isEmpty
  | h :: t, pat => startsWithChars (h :: t) pat || hasSubstringChars t pat

/-- Whether `pat` occurs as a contiguous substring of `s`. -/
def containsSubstring (s pat : String) : Bool :=
  hasSubstringChars s.data pat.data

/-- The checklist's sample document with PII, run through the sanitizer at
the default configuration. -/
def exampleSanitized : SanitizedItem :=
  sanitize defaultSanitizerConfig
    "Contact researcher@lab.edu or call 555-123-4567 about patient 123-45-6789"

/-! ## Sorting lemmas -/

theorem insertBy_perm {α : Type} (le : α → α → Bool) (x : α) :
    ∀ l : List α, List.Perm (insertBy le x l) (x :: l)
  | [] => List.Perm.refl _
  | y :: ys => by
    simp only [insertBy]
    by_cases h : le x y = true
    · simp [h]
    · simp only [h, ite_false]
      exact ((insertBy_perm le x ys).cons y).trans (List.Perm.swap x y ys)

theorem sortBy_perm {α : Type} (le : α → α → Bool) :
    ∀ l : List α, List.Perm (sortBy le l) l
  | [] => List.Perm.refl _
  | x :: xs => (insertBy_perm le x (sortBy le xs)).trans ((sortBy_perm le xs).cons x)

theorem pairwise_insertBy {α : Type} {le : α → α → Bool}
    (htot : ∀ a b, le a b || le b a)
    (htrans : ∀ a b c, le a b → le b c → le a c) (x : α) :
    ∀ {l : List α}, List.Pairwise (fun a b => le a b = true) l →
      List.Pairwise (fun a b => le a b = true) (insertBy le x l)
  | [], _ => List.Pairwise.cons (by simp) List.Pairwise.nil
  | y :: ys, h => by
    rcases List.pairwise_cons.mp h with ⟨hy, hys⟩
    simp only [insertBy]
    by_cases hxy : le x y = true
    · simp only [hxy, ite_true]
      refine List.pairwise_cons.mpr ⟨?_, h⟩
      intro b hb
      rcases List.mem_cons.mp hb with rfl | hb
      · exact hxy
      · exact htrans x y b hxy (hy b hb)
    · have hyx : le y x := by
        rcases Bool.or_eq_true _ _ |>.mp (htot x y) with h1 | h1
        · exact absurd h1 hxy
        · exact h1
      simp only [hxy, ite_false]
      refine List.pairwise_cons.mpr ⟨?_, pairwise_insertBy htot htrans x hys⟩
      intro b hb
      have hb' := (insertBy_perm le x ys).mem_iff.mp hb
      rcases List.mem_cons.mp hb' with rfl | hb''
      · exact hyx
      · exact hy b hb''

theorem pairwise_sortBy {α : Type} {le : α → α → Bool}
    (htot : ∀ a b, le a b || le b a)
    (htrans : ∀ a b c, le a b → le b c → le a c) :
    ∀ l : List α, List.Pairwise (fun a b => le a b = true) (sortBy le l)
  | [] => List.Pairwise.nil
  | x :: xs => pairwise_insertBy htot htrans x (pairwise_sortBy htot htrans xs)

theorem rankLE_trans (qv : List Int) (a b c : Chunk) :
    rankLE qv a b → rankLE qv b c → rankLE qv a c := by
  simp only [rankLE, Bool.or_eq_true, Bool.and_eq_true, decide_eq_true_eq]
  omega

theorem rankLE_total (qv : List Int) (a b : Chunk) :
    rankLE qv a b || rankLE qv b a := by
  simp only [rankLE, Bool.or_eq_true, Bool.and_eq_true, decide_eq_true_eq]
  omega

theorem rank_pairwise (qv : List Int) (k : Nat) (cs : List Chunk) :
    List.Pairwise (fun a b => rankLE qv a b = true) (rank qv k cs) :=
  (pairwise_sortBy (rankLE_total qv) (rankLE_trans qv) cs).sublist
    (List.take_sublist _ _)

theorem rank_subset (qv : List Int) (k : Nat) (cs : List Chunk) :
    ∀ c ∈ rank qv k cs, c ∈ cs := by
  intro c hc
  exact (sortBy_perm (rankLE qv) cs).mem_iff.mp (List.mem_of_mem_take hc)

theorem rank_all (qv : List Int) {k : Nat} {cs : List Chunk}
    (hk : cs.length ≤ k) : ∀ c ∈ cs, c ∈ rank qv k cs := by
  intro c hc
  have hlen : (sortBy (rankLE qv) cs).length = cs.length :=
    (sortBy_perm (rankLE qv) cs).length_eq
  unfold rank
  rw [List.take_of_length_le (by omega)]
  exact (sortBy_perm (rankLE qv) cs).mem_iff.mpr hc

/-! ## Store lemmas -/

theorem collectionName_inj {a b : String}
    (h : collectionName a = collectionName b) : a = b := by
  have hd := congrArg String.data h
  simp only [collectionName, String.data_append] at hd
  exact String.ext (List.append_cancel_left (List.append_cancel_right hd))

theorem wf_nil : WfStore [] := by
  intro p hp
  cases hp

theorem storeInsert_wf : ∀ (s : Store) (org : String) (cs : List Chunk),
    WfStore s → (∀ c ∈ cs, c.organization_id = org) →
    WfStore (storeInsert s (collectionName org) cs)
  | [], org, cs, _, hcs => by
    intro p hp c hc
    simp only [storeInsert, List.mem_singleton] at hp
    subst hp
    show collectionName c.organization_id = collectionName org
    rw [hcs c hc]
  | (n, v) :: t, org, cs, hs, hcs => by
    intro p hp c hc
    simp only [storeInsert] at hp
    by_cases h : n = collectionName org
    · rw [if_pos h] at hp
      rcases List.mem_cons.mp hp with rfl | hp'
      · rcases List.mem_append.mp hc with hc' | hc'
        · exact hs (n, v) (List.mem_cons_self _ _) c hc'
        · show collectionName c.organization_id = n
          rw [hcs c hc', ← h]
      · exact hs p (List.mem_cons_of_mem _ hp') c hc
    · rw [if_neg h] at hp
      rcases List.mem_cons.mp hp with rfl | hp'
      · exact hs (n, v) (List.mem_cons_self _ _) c hc
      · exact storeInsert_wf t org cs
          (fun q hq => hs q (List.mem_cons_of_mem _ hq)) hcs p hp' c hc

theorem write_wf {s s' : Store} {org : String} {cs : List Chunk}
    (hs : WfStore s) (hw : write s org cs = Except.ok s') : WfStore s' := by
  unfold write at hw
  split at hw
  case isTrue h =>
    injection hw with hw
    subst hw
    refine storeInsert_wf s org cs hs ?_
    intro c hc
    have := List.all_eq_true.mp h c hc
    exact of_decide_eq_true this
  case isFalse h =>
    cases hw

theorem applyWrites_wf : ∀ (ops : List (String × List Chunk)) (s : Store),
    WfStore s → WfStore (applyWrites s ops)
  | [], _, hs => hs
  | op :: t, s, hs => by
    simp only [applyWrites, List.foldl_cons]
    cases hw : write s op.1 op.2 with
    | ok s' =>
      simp only [hw]
      exact applyWrites_wf t s' (write_wf hs hw)
    | error e =>
      simp only [hw]
      exact applyWrites_wf t s hs

theorem storeFind_wf : ∀ (s : Store) (name : String) (cs : List Chunk),
    WfStore s → storeFind s name = some cs →
    ∀ c ∈ cs, collectionName c.organization_id = name
  | [], _, _, _, h => by simp [storeFind] at h
  | (n, v) :: t, name, cs, hs, h => by
    simp only [storeFind] at h
    by_cases hn : n = name
    · rw [if_pos hn] at h
      injection h with h
      subst h
      intro c hc
      exact hn ▸ hs (n, v) (List.mem_cons_self _ _) c hc
    · rw [if_neg hn] at h
      exact storeFind_wf t name cs
        (fun q hq => hs q (List.mem_cons_of_mem _ hq)) h

theorem storeFind_delete : ∀ (s : Store) (org : String),
    storeFind (delete s org) (collectionName org) = none
  | [], _ => rfl
  | (n, v) :: t, org => by
    by_cases h : n = collectionName org
    · have hd : delete ((n, v) :: t) org = delete t org := by
        simp [delete, h]
      rw [hd]
      exact storeFind_delete t org
    · have hd : delete ((n, v) :: t) org = (n, v) :: delete t org := by
        simp [delete, h]
      rw [hd]
      simp only [storeFind, if_neg h]
      exact storeFind_delete t org

theorem query_ok {s : Store} {org : String} {qv : List Int} {k : Nat}
    {r : RetrievalResult} (h : query s org qv k = Except.ok r) :
    ∃ cs, storeFind s (collectionName org) = some cs ∧
      r = ⟨rank qv k cs, org⟩ := by
  unfold query at h
  cases hf : storeFind s (collectionName org) with
  | none => rw [hf] at h; cases h
  | some cs =>
    rw [hf] at h
    injection h with h
    exact ⟨cs, rfl, h.symm⟩

/-! ## Claim theorems: store -/

/-- Claim C1: for distinct organizations A and B, after any sequence of
writes starting from the empty store, a successful query under B returns no
chunk whose organization_id is A, for every query vector; moreover every
chunk of one result set carries the queried organization_id, so no result
mixes organizations (and `query` takes `org_id` as an explicit argument). -/
theorem tenant_isolation (ops : List (String × List Chunk)) (A B : String)
    (qv : List Int) (k : Nat) (r : RetrievalResult)
    (hAB : A ≠ B)
    (hq : query (applyWrites [] ops) B qv k = Except.ok r) :
    (∀ c ∈ r.chunks, c.organization_id ≠ A) ∧
    (∀ c ∈ r.chunks, c.organization_id = B) := by
  obtain ⟨cs, hf, hr⟩ := query_ok hq
  have hwf := applyWrites_wf ops [] wf_nil
  have hcs := storeFind_wf _ _ _ hwf hf
  have hB : ∀ c ∈ r.chunks, c.organization_id = B := by
    intro c hc
    rw [hr] at hc
    exact collectionName_inj (hcs c (rank_subset qv k cs c hc))
  refine ⟨?_, hB⟩
  intro c hc hA
  exact hAB (by rw [← hA, hB c hc])

theorem tenant_isolation_witness :
    ("lab_a" : String) ≠ "lab_b" ∧
    query (applyWrites []
        [("lab_a", [⟨"a", "lab_a", 1, [1], 0⟩]),
         ("lab_b", [⟨"b", "lab_b", 2, [1], 0⟩])]) "lab_b" [1] 5 =
      Except.ok ⟨[⟨"b", "lab_b", 2, [1], 0⟩], "lab_b"⟩ ∧
    ((∀ c ∈ (RetrievalResult.mk [⟨"b", "lab_b", 2, [1], 0⟩] "lab_b").chunks,
        c.organization_id ≠ "lab_a") ∧
     (∀ c ∈ (RetrievalResult.mk [⟨"b", "lab_b", 2, [1], 0⟩] "lab_b").chunks,
        c.organization_id = "lab_b")) :=
  ⟨by decide, by rfl,
   tenant_isolation
     [("lab_a", [⟨"a", "lab_a", 1, [1], 0⟩]),
      ("lab_b", [⟨"b", "lab_b", 2, [1], 0⟩])]
     "lab_a" "lab_b" [1] 5 ⟨[⟨"b", "lab_b", 2, [1], 0⟩], "lab_b"⟩
     (by decide) (by rfl)⟩

/-- Claim C5: the mapping from organization_id to namespace name is
deterministic (it is a function) and injective: distinct organization
identifiers always resolve to distinct namespace names. -/
theorem collectionName_distinct (a b : String) (h : a ≠ b) :
    collectionName a ≠ collectionName b :=
  fun hc => h (collectionName_inj hc)

theorem collectionName_distinct_witness :
    ("lab_a" : String) ≠ "lab_b" ∧
    collectionName "lab_a" ≠ collectionName "lab_b" :=
  ⟨by decide, collectionName_distinct "lab_a" "lab_b" (by decide)⟩

/-- Claim C6: after `delete` removes an organization's namespace, a query
under that organization fails with UnknownOrganizationError; a query
against an existing but empty namespace instead succeeds with zero chunks
and gap analysis marks every expected topic as a gap — the two outcomes are
distinguishable (error versus ok). -/
theorem delete_query_distinguishable (s : Store) (org : String)
    (qv : List Int) (k : Nat) (gcfg : GapConfig)
    (topics : List ExpectedTopic) :
    query (delete s org) org qv k =
      Except.error StoreError.unknownOrganization ∧
    ∃ s', write [] org [] = Except.ok s' ∧
      query s' org qv k = Except.ok ⟨[], org⟩ ∧
      ∀ e ∈ analyzeGaps gcfg ⟨[], org⟩ topics, e.supported = false := by
  constructor
  · unfold query
    rw [storeFind_delete s org]
  · refine ⟨[(collectionName org, [])], rfl, ?_, ?_⟩
    · unfold query
      have hf : storeFind [(collectionName org, [])] (collectionName org) =
          some [] := by
        simp [storeFind]
      rw [hf]
      simp [rank, sortBy]
    · intro e he
      simp only [analyzeGaps, List.mem_map] at he
      obtain ⟨t, _, rfl⟩ := he
      rfl

/-- Claim C8: writing n chunks into a fresh namespace and then querying the
same namespace with top_k at least n returns every written chunk at least
once; the result is ordered by the ranking relation (similarity first, ties
by most-recent source_item_id), and an identical repeated query returns the
identical result. -/
theorem write_query_complete (org : String) (chunks : List Chunk)
    (qv : List Int) (k : Nat)
    (hown : ∀ c ∈ chunks, c.organization_id = org)
    (hk : chunks.length ≤ k) :
    ∃ s, write [] org chunks = Except.ok s ∧
    ∃ r, query s org qv k = Except.ok r ∧
      (∀ c ∈ chunks, c ∈ r.chunks) ∧
      List.Pairwise (fun a b => rankLE qv a b = true) r.chunks ∧
      (∀ r', query s org qv k = Except.ok r' → r' = r) := by
  have hall : chunks.all (fun c => decide (c.organization_id = org)) = true := by
    rw [List.all_eq_true]
    intro c hc
    exact decide_eq_true (hown c hc)
  refine ⟨storeInsert [] (collectionName org) chunks, ?_, ?_⟩
  · unfold write
    rw [if_pos hall]
  · have hq : query (storeInsert [] (collectionName org) chunks) org qv k =
        Except.ok ⟨rank qv k chunks, org⟩ := by
      unfold query
      have hf : storeFind (storeInsert [] (collectionName org) chunks)
          (collectionName org) = some chunks := by
        simp [storeInsert, storeFind]
      rw [hf]
    refine ⟨⟨rank qv k chunks, org⟩, hq, ?_, rank_pairwise qv k chunks, ?_⟩
    · exact fun c hc => rank_all qv hk c hc
    · intro r' h'
      rw [hq] at h'
      injection h' with h'
      exact h'.symm

theorem write_query_complete_witness :
    (∀ c ∈ [(⟨"x", "lab_a", 1, [1], 0⟩ : Chunk), ⟨"y", "lab_a", 2, [2], 1⟩],
      c.organization_id = "lab_a") ∧
    ([(⟨"x", "lab_a", 1, [1], 0⟩ : Chunk), ⟨"y", "lab_a", 2, [2], 1⟩].length ≤ 2) ∧
    (∃ s, write [] "lab_a"
        [⟨"x", "lab_a", 1, [1], 0⟩, ⟨"y", "lab_a", 2, [2], 1⟩] =
        Except.ok s ∧
     ∃ r, query s "lab_a" [1] 2 = Except.ok r ∧
      (∀ c ∈ [(⟨"x", "lab_a", 1, [1], 0⟩ : Chunk), ⟨"y", "lab_a", 2, [2], 1⟩],
        c ∈ r.chunks) ∧
      List.Pairwise (fun a b => rankLE [1] a b = true) r.chunks ∧
      (∀ r', query s "lab_a" [1] 2 = Except.ok r' → r' = r)) :=
  ⟨by decide, by decide,
   write_query_complete "lab_a"
     [⟨"x", "lab_a", 1, [1], 0⟩, ⟨"y", "lab_a", 2, [2], 1⟩]
     [1] 2 (by decide) (by decide)⟩

/-! ## Sanitizer lemmas -/

theorem reverse_word_ok {cur : List Char} (h : cur.isEmpty = false)
    (hcur : ∀ c ∈ cur, c.isWhitespace = false) :
    cur.reverse ≠ [] ∧ WsFree cur.reverse := by
  constructor
  · intro hnil
    rw [List.reverse_eq_nil_iff] at hnil
    subst hnil
    simp at h
  · intro c hc
    exact hcur c (List.mem_reverse.mp hc)

theorem splitWordsAux_sound : ∀ (l cur : List Char),
    (∀ c ∈ cur, c.isWhitespace = false) →
    ∀ w ∈ splitWordsAux cur l, w ≠ [] ∧ WsFree w
  | [], cur, hcur => by
    intro w hw
    simp only [splitWordsAux] at hw
    by_cases h : cur.isEmpty = true
    · rw [if_pos h] at hw
      cases hw
    · rw [if_neg h] at hw
      rw [List.mem_singleton] at hw
      subst hw
      exact reverse_word_ok (Bool.eq_false_iff.mpr h) hcur
  | c :: rest, cur, hcur => by
    intro w hw
    simp only [splitWordsAux] at hw
    by_cases hws : c.isWhitespace = true
    · rw [if_pos hws] at hw
      by_cases hemp : cur.isEmpty = true
      · rw [if_pos hemp] at hw
        exact splitWordsAux_sound rest [] (by intro x hx; cases hx) w hw
      · rw [if_neg hemp] at hw
        rcases List.mem_cons.mp hw with rfl | hw'
        · exact reverse_word_ok (Bool.eq_false_iff.mpr hemp) hcur
        · exact splitWordsAux_sound rest [] (by intro x hx; cases hx) w hw'
    · rw [if_neg hws] at hw
      refine splitWordsAux_sound rest (c :: cur) ?_ w hw
      intro x hx
      rcases List.mem_cons.mp hx with rfl | hx'
      · exact Bool.eq_false_iff.mpr hws
      · exact hcur x hx'

theorem splitWords_sound (s : List Char) :
    ∀ w ∈ splitWords s, w ≠ [] ∧ WsFree w :=
  splitWordsAux_sound s [] (by intro c hc; cases hc)

theorem splitWordsAux_append : ∀ (w cur rest : List Char), WsFree w →
    splitWordsAux cur (w ++ rest) = splitWordsAux (w.reverse ++ cur) rest
  | [], cur, rest, _ => rfl
  | c :: w', cur, rest, hw => by
    have hc : c.isWhitespace = false := hw c (List.mem_cons_self _ _)
    show splitWordsAux cur (c :: (w' ++ rest)) = _
    simp only [splitWordsAux]
    rw [if_neg (by rw [hc]; exact Bool.false_ne_true)]
    rw [splitWordsAux_append w' (c :: cur) rest
      (fun x hx => hw x (List.mem_cons_of_mem _ hx))]
    congr 1
    simp [List.reverse_cons, List.append_assoc]

theorem splitWords_joinWords : ∀ ws : List (List Char),
    (∀ w ∈ ws, w ≠ [] ∧ WsFree w) → splitWords (joinWords ws) = ws
  | [], _ => rfl
  | [w], h => by
    obtain ⟨hne, hfree⟩ := h w (List.mem_singleton.mpr rfl)
    show splitWordsAux [] (joinWords [w]) = [w]
    have hj : joinWords [w] = w := rfl
    rw [hj]
    have h2 : splitWordsAux [] (w ++ []) = splitWordsAux (w.reverse ++ []) [] :=
      splitWordsAux_append w [] [] hfree
    rw [List.append_nil, List.append_nil] at h2
    rw [h2]
    simp only [splitWordsAux]
    rw [if_neg (by simp [List.isEmpty_iff, hne])]
    rw [List.reverse_reverse]
  | w :: x :: ws, h => by
    obtain ⟨hne, hfree⟩ := h w (List.mem_cons_self _ _)
    show splitWordsAux [] (joinWords (w :: x :: ws)) = w :: x :: ws
    have hj : joinWords (w :: x :: ws) = w ++ ' ' :: joinWords (x :: ws) := rfl
    rw [hj]
    rw [splitWordsAux_append w [] _ hfree]
    rw [List.append_nil]
    simp only [splitWordsAux]
    rw [if_pos (show (' ').isWhitespace = true from rfl)]
    rw [if_neg (by simp [List.isEmpty_iff, hne])]
    rw [List.reverse_reverse]
    have ih := splitWords_joinWords (x :: ws)
      (fun u hu => h u (List.mem_cons_of_mem _ hu))
    unfold splitWords at ih
    rw [ih]

theorem token_clean : ∀ p : PIIClass,
    classOf (token p).data = none ∧ (token p).data ≠ [] ∧ WsFree (token p).data := by
  intro p
  cases p <;> exact ⟨by decide, by decide, by unfold WsFree; decide⟩

theorem sanitizedWords_spec (text : String) :
    ∀ w ∈ sanitizedWords text, classOf w = none ∧ w ≠ [] ∧ WsFree w := by
  intro w hw
  simp only [sanitizedWords, List.mem_map] at hw
  obtain ⟨w0, hw0, rfl⟩ := hw
  have h0 := splitWords_sound text.data w0 hw0
  unfold redactWord
  cases hcl : classOf w0 with
  | some p => exact token_clean p
  | none => exact ⟨hcl, h0⟩

theorem fitWords_mem : ∀ (m acc : Nat) (ws : List (List Char)) (w : List Char),
    w ∈ fitWords m acc ws → w ∈ ws
  | _, _, [], _, h => by cases h
  | m, acc, x :: xs, w, h => by
    simp only [fitWords] at h
    by_cases hc : wordCost acc x ≤ m
    · rw [if_pos hc] at h
      rcases List.mem_cons.mp h with rfl | h'
      · exact List.mem_cons_self _ _
      · exact List.mem_cons_of_mem _ (fitWords_mem m (wordCost acc x) xs w h')
    · rw [if_neg hc] at h
      cases h

theorem wordCost_eq (acc : Nat) (w : List Char) :
    wordCost acc w = joinPad acc + w.length := by
  unfold wordCost joinPad
  by_cases h : acc = 0 <;> simp [h]

theorem joinPad_of_ne {c : Nat} (h : c ≠ 0) : joinPad c = c + 1 := by
  unfold joinPad
  rw [if_neg h]

theorem fitWords_join_length (m : Nat) : ∀ (ws : List (List Char)) (acc : Nat),
    (∀ w ∈ ws, w ≠ []) → acc ≤ m →
    fitWords m acc ws = [] ∨
      joinPad acc + (joinWords (fitWords m acc ws)).length ≤ m
  | [], _, _, _ => Or.inl rfl
  | w :: ws, acc, hne, hacc => by
    simp only [fitWords]
    by_cases hcm : wordCost acc w ≤ m
    · rw [if_pos hcm]
      right
      have hw : w ≠ [] := hne w (List.mem_cons_self _ _)
      have hw1 : 0 < w.length := List.length_pos.mpr hw
      have hcost := wordCost_eq acc w
      have hc0 : wordCost acc w ≠ 0 := by omega
      have hrec := fitWords_join_length m ws (wordCost acc w)
        (fun u hu => hne u (List.mem_cons_of_mem _ hu)) hcm
      cases hfit : fitWords m (wordCost acc w) ws with
      | nil =>
        show joinPad acc + (joinWords [w]).length ≤ m
        have hjw : joinWords [w] = w := rfl
        rw [hjw]
        omega
      | cons y ys =>
        have hle : joinPad (wordCost acc w) +
            (joinWords (y :: ys)).length ≤ m := by
          rw [hfit] at hrec
          rcases hrec with h0 | hl
          · exact absurd h0 (List.cons_ne_nil y ys)
          · exact hl
        have hjj : joinWords (w :: y :: ys) = w ++ ' ' :: joinWords (y :: ys) := rfl
        rw [hjj]
        rw [List.length_append, List.length_cons]
        rw [joinPad_of_ne hc0] at hle
        omega
    · rw [if_neg hcm]
      exact Or.inl rfl

theorem fitWords_complete (m : Nat) : ∀ (ws : List (List Char)) (acc : Nat),
    (∀ w ∈ ws, w ≠ []) →
    joinPad acc + (joinWords ws).length ≤ m → fitWords m acc ws = ws
  | [], _, _, _ => rfl
  | w :: ws, acc, hne, hall => by
    have hw : w ≠ [] := hne w (List.mem_cons_self _ _)
    have hw1 : 0 < w.length := List.length_pos.mpr hw
    have hcost := wordCost_eq acc w
    have hc0 : wordCost acc w ≠ 0 := by omega
    have hwlen : w.length ≤ (joinWords (w :: ws)).length := by
      cases ws with
      | nil => exact Nat.le_refl _
      | cons y ys =>
        have hjj : joinWords (w :: y :: ys) = w ++ ' ' :: joinWords (y :: ys) := rfl
        rw [hjj, List.length_append, List.length_cons]
        omega
    simp only [fitWords]
    rw [if_pos (by omega)]
    congr 1
    cases ws with
    | nil => rfl
    | cons y ys =>
      refine fitWords_complete m (y :: ys) (wordCost acc w)
        (fun u hu => hne u (List.mem_cons_of_mem _ hu)) ?_
      have hjj : joinWords (w :: y :: ys) = w ++ ' ' :: joinWords (y :: ys) := rfl
      rw [hjj, List.length_append, List.length_cons] at hall
      rw [joinPad_of_ne hc0]
      omega

/-! ## Claim theorems: sanitizer -/

/-- Claim C2: for every text containing a recognizable pattern of one of
the registered PII classes, the sanitized content contains zero matches of
every registered pattern, and `validate` accepts the sanitized content. -/
theorem sanitize_removes_pii (cfg : SanitizerConfig) (text : String)
    (_h : ∃ cls, 0 < countMatches cls text) :
    (∀ cls, countMatches cls (sanitize cfg text).content = 0) ∧
    validate (sanitize cfg text).content = true := by
  have hkept : ∀ w ∈ fitWords cfg.maxLen 0 (sanitizedWords text),
      classOf w = none ∧ w ≠ [] ∧ WsFree w :=
    fun w hw => sanitizedWords_spec text w (fitWords_mem _ _ _ w hw)
  have hsplit : splitWords (joinWords (fitWords cfg.maxLen 0 (sanitizedWords text))) =
      fitWords cfg.maxLen 0 (sanitizedWords text) :=
    splitWords_joinWords _ (fun w hw => (hkept w hw).2)
  have hdata : (sanitize cfg text).content.data =
      joinWords (fitWords cfg.maxLen 0 (sanitizedWords text)) := rfl
  constructor
  · intro cls
    unfold countMatches
    rw [hdata, hsplit]
    rw [List.length_eq_zero, List.filter_eq_nil_iff]
    intro w hw
    simp only [decide_eq_true_eq]
    rw [(hkept w hw).1]
    simp
  · unfold validate
    rw [hdata, hsplit]
    rw [List.all_eq_true]
    intro w hw
    rw [(hkept w hw).1]
    rfl

theorem sanitize_removes_pii_witness :
    (∃ cls, 0 < countMatches cls "Contact researcher@lab.edu now") ∧
    ((∀ cls, countMatches cls
        (sanitize defaultSanitizerConfig "Contact researcher@lab.edu now").content = 0) ∧
     validate (sanitize defaultSanitizerConfig
        "Contact researcher@lab.edu now").content = true) :=
  ⟨⟨PIIClass.email, by decide⟩,
   sanitize_removes_pii defaultSanitizerConfig "Contact researcher@lab.edu now"
     ⟨PIIClass.email, by decide⟩⟩

/-- Claim C3: sanitizing the checklist's sample document yields content
containing the literal email, phone and SSN redaction tokens, none of the
original address or digit substrings, and a redaction report of exactly
three entries. -/
theorem sanitize_example_report :
    containsSubstring exampleSanitized.content "[EMAIL_REDACTED]" = true ∧
    containsSubstring exampleSanitized.content "[PHONE_REDACTED]" = true ∧
    containsSubstring exampleSanitized.content "[SSN_REDACTED]" = true ∧
    containsSubstring exampleSanitized.content "researcher@lab.edu" = false ∧
    containsSubstring exampleSanitized.content "555-123-4567" = false ∧
    containsSubstring exampleSanitized.content "123-45-6789" = false ∧
    exampleSanitized.redaction_report.entries.length = 3 := by
  decide

/-- Counterexample to claim C4 as stated: an input longer than the
configured maximum whose redaction already shrinks it within the maximum is
not truncated, so the truncated flag stays false. -/
theorem sanitize_truncation_counterexample :
    ¬ (∀ (cfg : SanitizerConfig) (text : String),
        cfg.maxLen < text.length →
        (sanitize cfg text).content.length ≤ cfg.maxLen ∧
        (sanitize cfg text).redaction_report.truncated = true) := by
  intro h
  have h2 := (h ⟨20⟩ "aaaaaaaaaaaaaaaaaaaaaaaa@bb.cc" (by decide)).2
  exact absurd h2 (by decide)

/-- Claim C4 (amended): for every input the sanitized content never exceeds
the configured maximum; truncation is never silent — when the flag is false
the content is the complete redacted text, and whenever the redacted text
exceeds the maximum the flag is set. -/
theorem sanitize_truncation (cfg : SanitizerConfig) (text : String) :
    (sanitize cfg text).content.length ≤ cfg.maxLen ∧
    ((sanitize cfg text).redaction_report.truncated = false →
      (sanitize cfg text).content = fullRedaction text) ∧
    (cfg.maxLen < (fullRedaction text).length →
      (sanitize cfg text).redaction_report.truncated = true) := by
  have hne : ∀ w ∈ sanitizedWords text, w ≠ [] :=
    fun w hw => (sanitizedWords_spec text w hw).2.1
  have hflag : (sanitize cfg text).redaction_report.truncated =
      decide (cfg.maxLen < (joinWords (sanitizedWords text)).length) := rfl
  have hfull : (fullRedaction text).length =
      (joinWords (sanitizedWords text)).length := rfl
  refine ⟨?_, ?_, ?_⟩
  · have hlen : (sanitize cfg text).content.length =
        (joinWords (fitWords cfg.maxLen 0 (sanitizedWords text))).length := rfl
    rw [hlen]
    rcases fitWords_join_length cfg.maxLen (sanitizedWords text) 0 hne
        (Nat.zero_le _) with h0 | hle
    · rw [h0]
      exact Nat.zero_le cfg.maxLen
    · have hp : joinPad 0 = 0 := rfl
      omega
  · intro htr
    rw [hflag] at htr
    have hlt := of_decide_eq_false htr
    have hfit : fitWords cfg.maxLen 0 (sanitizedWords text) = sanitizedWords text := by
      refine fitWords_complete cfg.maxLen (sanitizedWords text) 0 hne ?_
      have hp : joinPad 0 = 0 := rfl
      omega
    show String.mk (joinWords (fitWords cfg.maxLen 0 (sanitizedWords text))) =
      fullRedaction text
    rw [hfit]
    rfl
  · intro hlt
    rw [hflag]
    rw [hfull] at hlt
    exact decide_eq_true hlt

/-! ## Claim theorems: classifier gate and frontend -/

/-- Claim C7: for every classifier, configuration and item — a
classification error fails closed (rejected, Sanitizer and Store never
reached); an item classified personal never reaches the Sanitizer or the
Store; and whenever the Sanitizer or the Store is reached the item was
classified work with confidence at or above the threshold. -/
theorem classifier_gate
    (classify : RawItem → Except ClassifyError ClassificationLabel)
    (cfg : PipelineConfig) (item : RawItem) :
    (∀ e, classify item = Except.error e →
      (processItem classify cfg item).sanitizerCalled = false ∧
      (processItem classify cfg item).storeWritten = false ∧
      (processItem classify cfg item).outcome =
        IngestOutcome.rejected "classification_failure") ∧
    (∀ lab, classify item = Except.ok lab → lab.category = Category.personal →
      (processItem classify cfg item).sanitizerCalled = false ∧
      (processItem classify cfg item).storeWritten = false ∧
      (processItem classify cfg item).outcome =
        IngestOutcome.rejected "personal") ∧
    ((processItem classify cfg item).sanitizerCalled = true ∨
      (processItem classify cfg item).storeWritten = true →
      ∃ lab, classify item = Except.ok lab ∧ lab.category = Category.work ∧
        cfg.threshold ≤ lab.confidence) := by
  cases hcl : classify item with
  | error e =>
    have hpi : processItem classify cfg item =
        ⟨IngestOutcome.rejected "classification_failure", false, false⟩ := by
      unfold processItem
      rw [hcl]
    refine ⟨fun e' _ => ?_, fun lab hl _ => ?_, fun habs => ?_⟩
    · rw [hpi]
      exact ⟨rfl, rfl, rfl⟩
    · cases hl
    · rw [hpi] at habs
      rcases habs with h | h <;> cases h
  | ok lab =>
    by_cases hc : lab.category = Category.work ∧ cfg.threshold ≤ lab.confidence
    · have hpi : processItem classify cfg item =
          ⟨IngestOutcome.stored (sanitize cfg.sanitizerCfg item.content),
           true, true⟩ := by
        unfold processItem
        simp only [hcl]
        rw [if_pos hc]
      refine ⟨fun e he => ?_, fun lab' hl hp => ?_,
        fun _ => ⟨lab, rfl, hc.1, hc.2⟩⟩
      · cases he
      · injection hl with h2
        subst h2
        have hw := hc.1
        rw [hp] at hw
        cases hw
    · have hpi : processItem classify cfg item =
          ⟨IngestOutcome.rejected "personal", false, false⟩ := by
        unfold processItem
        simp only [hcl]
        rw [if_neg hc]
      refine ⟨fun e he => ?_, fun lab' hl hp => ?_, fun habs => ?_⟩
      · cases he
      · rw [hpi]
        exact ⟨rfl, rfl, rfl⟩
      · rw [hpi] at habs
        rcases habs with h | h <;> cases h

theorem classifier_gate_witness :
    (ruleClassifier ⟨"hello", "subj", "note", 0, "org"⟩ =
      Except.ok ⟨Category.personal, 1⟩) ∧
    ((processItem ruleClassifier ⟨1, ⟨2000⟩⟩
        ⟨"hello", "subj", "note", 0, "org"⟩).sanitizerCalled = false ∧
     (processItem ruleClassifier ⟨1, ⟨2000⟩⟩
        ⟨"hello", "subj", "note", 0, "org"⟩).storeWritten = false ∧
     (processItem ruleClassifier ⟨1, ⟨2000⟩⟩
        ⟨"hello", "subj", "note", 0, "org"⟩).outcome =
       IngestOutcome.rejected "personal") :=
  ⟨by rfl,
   (classifier_gate ruleClassifier ⟨1, ⟨2000⟩⟩
      ⟨"hello", "subj", "note", 0, "org"⟩).2.1
     ⟨Category.personal, 1⟩ (by rfl) rfl⟩

/-- Claim C9: updating one application's status maps over the list: the
length and order are preserved, every application with a different id is
unchanged, and the matching application changes only its status field. -/
theorem updateApplicationStatus_frame (appId : String) (st : AppStatus)
    (apps : List Application) :
    (updateApplicationStatus appId st apps).length = apps.length ∧
    List.Forall₂ (fun a b =>
        (a.id ≠ appId → b = a) ∧
        (a.id = appId → b = { a with status := st }))
      apps (updateApplicationStatus appId st apps) := by
  constructor
  · exact List.length_map _ _
  · induction apps with
    | nil => exact List.Forall₂.nil
    | cons a t ih =>
      show List.Forall₂ _ (a :: t) (List.map _ (a :: t))
      rw [List.map_cons]
      refine List.Forall₂.cons ⟨?_, ?_⟩ ih
      · intro hne
        simp [hne]
      · intro heq
        simp [heq]

/-- Claim C10: `getStatusColor` is total — it always returns a full style
record — and on any status outside the four known values it returns the
default record labelled Unknown. -/
theorem getStatusColor_total_default (s : String)
    (h : s ∉ ["pending", "under_review", "accepted", "rejected"]) :
    getStatusColor s = ⟨"#F3F4F6", "#6B7280", "Unknown"⟩ := by
  simp only [List.mem_cons, List.not_mem_nil, or_false, not_or] at h
  obtain ⟨h1, h2, h3, h4⟩ := h
  unfold getStatusColor
  rw [if_neg h1, if_neg h2, if_neg h3, if_neg h4]

theorem getStatusColor_total_default_witness :
    ("draft" : String) ∉ ["pending", "under_review", "accepted", "rejected"] ∧
    getStatusColor "draft" = ⟨"#F3F4F6", "#6B7280", "Unknown"⟩ :=
  ⟨by decide, getStatusColor_total_default "draft" (by decide)⟩
